import Mathlib

/-!
# Verification of the streaming skewness accumulator

Shallow embedding of `src/moments/skewness.rs` (the `Skewness` estimator of
the `average` crate) together with a model of the `MeanWithError`
mean/variance accumulator it owns.  Floating-point (`f64`) arithmetic is
embedded as exact rational arithmetic (`ℚ`, with Lean's `x / 0 = 0`
convention); the square roots appearing in the derived statistics
`error` and `skewness` are taken in `ℝ`.  Because the `ℚ` convention is
not faithful on the one source path that divides by zero (the merge of
two empty accumulators), a second model over the `f64` domain abstracted
by finiteness (`FP`) renders that path faithfully.
-/

set_option maxHeartbeats 1000000

/-- Modelled from the spec: the `MeanWithError` (MomentAccumulator) type is
not part of the sources; per §3 of the spec it holds a count, a running
mean and the running sum of squared deviations (Welford's M2 quantity).
Field names follow the crate (`sum_2` for the M2 sum). -/
@[ext]
structure MeanWithError where
  n : ℕ
  avg : ℚ
  sum_2 : ℚ
  deriving Repr, DecidableEq

namespace MeanWithError

/-- Modelled from the spec: `new()` creates the empty accumulator
(count 0, all moment fields 0). -/
def new : MeanWithError := ⟨0, 0, 0⟩

/-- Modelled from the spec: `len()` returns the count. -/
def len (s : MeanWithError) : ℕ := s.n

/-- Modelled from the spec: `is_empty()` holds iff the count is 0. -/
def is_empty (s : MeanWithError) : Bool := s.n == 0

/-- Modelled from the spec: `mean()` returns the running mean
(0 for an empty accumulator by construction). -/
def mean (s : MeanWithError) : ℚ := s.avg

/-- Modelled from the spec: `increment()` bumps the count and changes
nothing else (step 2 of the order-sensitive `add` protocol, §4.2). -/
def increment (s : MeanWithError) : MeanWithError :=
  { s with n := s.n + 1 }

/-- Modelled from the spec: the inner part of Welford's `add`, run after
`increment`, folding an already computed `delta_n = delta / n` into mean
and `sum_2`; with `n` the count after increment the M2 update is
`sum_sq += delta * delta / n * (n - 1)`, i.e.
`delta_n * delta_n * n * (n - 1)` (§4.1, §4.2 step 4). -/
def add_inner (s : MeanWithError) (delta_n : ℚ) : MeanWithError :=
  let nf : ℚ := s.n
  { s with
    avg := s.avg + delta_n
    sum_2 := s.sum_2 + delta_n * delta_n * nf * (nf - 1) }

/-- Modelled from the spec: `add(x)`, Welford's online update —
`delta = x - mean_before`, count incremented, then the `delta_n` fold. -/
def add (s : MeanWithError) (x : ℚ) : MeanWithError :=
  let delta := x - s.mean
  let s1 := s.increment
  s1.add_inner (delta / (s1.n : ℚ))

/-- Modelled from the spec: `merge(other)` — Chan's parallel combination:
with `d = mean2 - mean1` and `n = n1 + n2`,
`mean = mean1 + d*n2/n` and `sum_sq = sum_sq1 + sum_sq2 + d*d*n1*n2/n`. -/
def merge (s o : MeanWithError) : MeanWithError :=
  let n1 : ℚ := s.n
  let n2 : ℚ := o.n
  let nt := n1 + n2
  let d := o.mean - s.mean
  { n := s.n + o.n
    avg := s.avg + d * n2 / nt
    sum_2 := s.sum_2 + o.sum_2 + d * d * n1 * n2 / nt }

/-- Modelled from the spec: the unbiased variance estimator
`sum_sq / (count - 1)`; the degenerate `count ≤ 1` case returns the
sentinel 0 (the model's consistent sentinel, via `x / 0 = 0`). -/
def sample_variance (s : MeanWithError) : ℚ :=
  s.sum_2 / ((s.n : ℚ) - 1)

/-- Modelled from the spec: the biased variance estimator `sum_sq / count`;
0 for an empty accumulator (via `x / 0 = 0`). -/
def population_variance (s : MeanWithError) : ℚ :=
  s.sum_2 / (s.n : ℚ)

/-- Modelled from the spec: the standard error of the mean,
`sqrt(sample_variance / count)`, taken in `ℝ`. -/
noncomputable def error (s : MeanWithError) : ℝ :=
  Real.sqrt ((s.sample_variance : ℝ) / (s.n : ℝ))

end MeanWithError

/-- The `Skewness` estimator: a `MeanWithError` it exclusively owns plus the
running sum of cubed deviations `sum_3` (from `skewness.rs`). -/
@[ext]
structure Skewness where
  avg : MeanWithError
  sum_3 : ℚ
  deriving Repr, DecidableEq

namespace Skewness

/-- `Skewness::new`: empty inner accumulator and `sum_3 = 0`. -/
def new : Skewness := ⟨MeanWithError.new, 0⟩

/-- `Skewness::is_empty`: delegated to the owned accumulator. -/
def is_empty (s : Skewness) : Bool := s.avg.is_empty

/-- `Skewness::mean`: delegated to the owned accumulator. -/
def mean (s : Skewness) : ℚ := s.avg.mean

/-- `Skewness::len`: delegated to the owned accumulator. -/
def len (s : Skewness) : ℕ := s.avg.len

/-- `Skewness::sample_variance`: delegated to the owned accumulator. -/
def sample_variance (s : Skewness) : ℚ := s.avg.sample_variance

/-- `Skewness::population_variance`: delegated to the owned accumulator. -/
def population_variance (s : Skewness) : ℚ := s.avg.population_variance

/-- `Skewness::error_mean`: delegated to the owned accumulator's `error`. -/
noncomputable def error_mean (s : Skewness) : ℝ := s.avg.error

/-- `Skewness::increment`: bump the inner count, nothing else. -/
def increment (s : Skewness) : Skewness :=
  { s with avg := s.avg.increment }

/-- `Skewness::add_inner`: with `n` the (already incremented) count,
`term = delta * delta_n * (n - 1)`, update
`sum_3 += term * delta_n * (n - 2) - 3 * delta_n * sum_2` reading the
owned accumulator's pre-update `sum_2`, and only then delegate
`add_inner(delta_n)` to the owned accumulator. -/
def add_inner (s : Skewness) (delta delta_n : ℚ) : Skewness :=
  let nf : ℚ := s.len
  let term := delta * delta_n * (nf - 1)
  { avg := s.avg.add_inner delta_n
    sum_3 := s.sum_3 + (term * delta_n * (nf - 2) - 3 * delta_n * s.avg.sum_2) }

/-- `Skewness::add`: `delta = x - mean_before`, increment the count, then
`add_inner(delta, delta / n)` with `n` the count after increment. -/
def add (s : Skewness) (x : ℚ) : Skewness :=
  let delta := x - s.mean
  let s1 := s.increment
  s1.add_inner delta (delta / (s1.len : ℚ))

/-- `Skewness::skewness`: 0 when `sum_3` is exactly 0, otherwise
`sqrt(n) * sum_3 / sqrt(sum_2 * sum_2 * sum_2)`. -/
noncomputable def skewness (s : Skewness) : ℝ :=
  if s.sum_3 = 0 then 0
  else
    Real.sqrt (s.len : ℝ) * (s.sum_3 : ℝ) /
      Real.sqrt ((s.avg.sum_2 : ℝ) * (s.avg.sum_2 : ℝ) * (s.avg.sum_2 : ℝ))

/-- `Skewness::merge`: with `delta = mean2 - mean1`,
`delta_n = delta / (n1 + n2)`, fold in
`other.sum_3 + delta*delta_n*delta_n*n1*n2*(n1 - n2)
 + 3*delta_n*(n1*sum_2_other - n2*sum_2_self)` using both pre-merge
`sum_2` values, and then delegate the mean/variance merge. -/
def merge (s o : Skewness) : Skewness :=
  let len_self : ℚ := s.len
  let len_other : ℚ := o.len
  let len_total := len_self + len_other
  let delta := o.mean - s.mean
  let delta_n := delta / len_total
  { avg := s.avg.merge o.avg
    sum_3 := s.sum_3 +
      (o.sum_3 + delta * delta_n * delta_n * len_self * len_other * (len_self - len_other)
        + 3 * delta_n * (len_self * o.avg.sum_2 - len_other * s.avg.sum_2)) }

/-- The `merge` call viewed as a transformer of the pair
(`&mut self`, `&other`): every write in the source targets `self`;
`other` is only read through its shared reference. -/
def merge_pair (s o : Skewness) : Skewness × Skewness :=
  (s.merge o, o)

/-- Bulk construction (`FromIterator`): fold `add` over a finite sequence,
starting from the empty accumulator. -/
def of_list (xs : List ℚ) : Skewness :=
  xs.foldl add new

end Skewness

/-! ## Float-faithful model of the division-by-zero path

The exact model above uses `ℚ`'s total division (`x / 0 = 0`), which is
faithful on every path that performs no division by zero.  The source has
exactly one such path: `Skewness::merge` divides by `len_total`
(`skewness.rs:118`), which is 0 when both accumulators are empty, and in
`f64` that division yields NaN.  To settle that path we also give a model
over the `f64` domain abstracted by finiteness: `some q` is the finite
value `q` and `none` is any non-finite value (a NaN or an infinity).
Finite arithmetic is modelled exactly (rounding and overflow are not
modelled); an operation with a non-finite operand yields a non-finite
result, as IEEE-754 guarantees for every `+`, `-`, `*` and for each
division instance below (all divisors are casts of counts, hence
finite). -/

/-- An `f64` value abstracted by finiteness: `some q` is the finite value
`q`, `none` is any non-finite value (a NaN or an infinity). -/
abbrev FP := Option ℚ

/-- Abstracted `f64` addition: finite plus finite is finite; a non-finite
operand gives a non-finite result (`∞ + x` is `∞` or NaN, `NaN + x` is
NaN). -/
def fadd : FP → FP → FP
  | some a, some b => some (a + b)
  | _, _ => none

/-- Abstracted `f64` subtraction. -/
def fsub : FP → FP → FP
  | some a, some b => some (a - b)
  | _, _ => none

/-- Abstracted `f64` multiplication (`0 * ∞` and `0 * NaN` are NaN, any
other non-finite operand gives `∞` or NaN). -/
def fmul : FP → FP → FP
  | some a, some b => some (a * b)
  | _, _ => none

/-- Abstracted `f64` division: finite over nonzero finite is finite;
division by zero is non-finite (`±∞` for a nonzero dividend, NaN for
`0/0`); a non-finite dividend propagates.  (A finite dividend over an
infinite divisor would be finite, but every divisor in the accumulator is
a cast of a count, hence finite.) -/
def fdiv : FP → FP → FP
  | some a, some b => if b = 0 then none else some (a / b)
  | _, _ => none

/-- Modelled from the spec: the `MeanWithError` state over the
finiteness-abstracted `f64` domain, with the same operations as the exact
model. -/
structure FMeanWithError where
  n : ℕ
  avg : FP
  sum_2 : FP
  deriving Repr, DecidableEq

namespace FMeanWithError

/-- Modelled from the spec: the empty accumulator. -/
def new : FMeanWithError := ⟨0, some 0, some 0⟩

/-- Modelled from the spec: the count. -/
def len (s : FMeanWithError) : ℕ := s.n

/-- Modelled from the spec: the running mean. -/
def mean (s : FMeanWithError) : FP := s.avg

/-- Modelled from the spec: bump the count only. -/
def increment (s : FMeanWithError) : FMeanWithError :=
  { s with n := s.n + 1 }

/-- Modelled from the spec: fold `delta_n` into mean and `sum_2` after the
count was incremented. -/
def add_inner (s : FMeanWithError) (delta_n : FP) : FMeanWithError :=
  let nf : FP := some (s.n : ℚ)
  { s with
    avg := fadd s.avg delta_n
    sum_2 := fadd s.sum_2 (fmul (fmul (fmul delta_n delta_n) nf) (fsub nf (some 1))) }

/-- Modelled from the spec: Chan's combination,
`mean += d*n2/n` and `sum_2 += sum_2' + d*d*n1*n2/n`. -/
def merge (s o : FMeanWithError) : FMeanWithError :=
  let n1 : FP := some (s.n : ℚ)
  let n2 : FP := some (o.n : ℚ)
  let nt := fadd n1 n2
  let d := fsub o.mean s.mean
  { n := s.n + o.n
    avg := fadd s.avg (fdiv (fmul d n2) nt)
    sum_2 := fadd (fadd s.sum_2 o.sum_2) (fdiv (fmul (fmul (fmul d d) n1) n2) nt) }

end FMeanWithError

/-- The `Skewness` state over the finiteness-abstracted `f64` domain; the
operations are translated from `skewness.rs` exactly as in the exact
model, with each `f64` operation replaced by its abstraction. -/
structure FSkewness where
  avg : FMeanWithError
  sum_3 : FP
  deriving Repr, DecidableEq

namespace FSkewness

/-- `Skewness::new` in the float-faithful model. -/
def new : FSkewness := ⟨FMeanWithError.new, some 0⟩

/-- `Skewness::mean`, delegated. -/
def mean (s : FSkewness) : FP := s.avg.mean

/-- `Skewness::len`, delegated. -/
def len (s : FSkewness) : ℕ := s.avg.len

/-- `Skewness::increment` in the float-faithful model. -/
def increment (s : FSkewness) : FSkewness :=
  { s with avg := s.avg.increment }

/-- `Skewness::add_inner` in the float-faithful model. -/
def add_inner (s : FSkewness) (delta delta_n : FP) : FSkewness :=
  let nf : FP := some (s.len : ℚ)
  let term := fmul (fmul delta delta_n) (fsub nf (some 1))
  { avg := s.avg.add_inner delta_n
    sum_3 := fadd s.sum_3 (fsub (fmul (fmul term delta_n) (fsub nf (some 2)))
      (fmul (fmul (some 3) delta_n) s.avg.sum_2)) }

/-- `Skewness::add` in the float-faithful model (the observation itself is
a finite `f64`). -/
def add (s : FSkewness) (x : ℚ) : FSkewness :=
  let delta := fsub (some x) s.mean
  let s1 := s.increment
  s1.add_inner delta (fdiv delta (some (s1.len : ℚ)))

/-- `Skewness::merge` in the float-faithful model:
`delta_n = delta / len_total` is non-finite when both inputs are empty. -/
def merge (s o : FSkewness) : FSkewness :=
  let len_self : FP := some (s.len : ℚ)
  let len_other : FP := some (o.len : ℚ)
  let len_total := fadd len_self len_other
  let delta := fsub o.mean s.mean
  let delta_n := fdiv delta len_total
  { avg := s.avg.merge o.avg
    sum_3 := fadd s.sum_3 (fadd (fadd o.sum_3
        (fmul (fmul (fmul (fmul (fmul delta delta_n) delta_n) len_self) len_other)
          (fsub len_self len_other)))
        (fmul (fmul (some 3) delta_n)
          (fsub (fmul len_self o.avg.sum_2) (fmul len_other s.avg.sum_2)))) }

end FSkewness

/-- States of the float-faithful model reachable from `new()` by any
sequence of `add` and `merge` over finite observations. -/
inductive FReach : FSkewness → Prop
  | base : FReach FSkewness.new
  | step_add : ∀ {s : FSkewness} (x : ℚ), FReach s → FReach (s.add x)
  | step_merge : ∀ {s o : FSkewness}, FReach s → FReach o → FReach (s.merge o)

/-! ## Closed form of the accumulated state

With exact arithmetic the state reached from the empty accumulator by any
mixture of `add` and `merge` is a function of the power sums of the
underlying observations.  We establish this closed form and use it for the
algebraic claims. -/

/-- First power sum `Σ x` of a list of observations. -/
def pow1 (xs : List ℚ) : ℚ := xs.sum

/-- Second power sum `Σ x²`. -/
def pow2 (xs : List ℚ) : ℚ := (xs.map (fun x => x ^ 2)).sum

/-- Third power sum `Σ x³`. -/
def pow3 (xs : List ℚ) : ℚ := (xs.map (fun x => x ^ 3)).sum

/-- The closed-form accumulator state for a list of observations: count,
mean `S₁/n`, central second moment `S₂ - S₁²/n` and central third moment
`S₃ - 3 S₁ S₂ / n + 2 S₁³ / n²` (all 0 for the empty list by the
`x / 0 = 0` convention). -/
def specA (xs : List ℚ) : Skewness :=
  let n : ℚ := xs.length
  { avg :=
      { n := xs.length
        avg := pow1 xs / n
        sum_2 := pow2 xs - pow1 xs ^ 2 / n }
    sum_3 := pow3 xs - 3 * pow1 xs * pow2 xs / n + 2 * pow1 xs ^ 3 / n ^ 2 }

theorem pow1_append (xs ys : List ℚ) : pow1 (xs ++ ys) = pow1 xs + pow1 ys := by
  simp [pow1]

theorem pow2_append (xs ys : List ℚ) : pow2 (xs ++ ys) = pow2 xs + pow2 ys := by
  simp [pow2]

theorem pow3_append (xs ys : List ℚ) : pow3 (xs ++ ys) = pow3 xs + pow3 ys := by
  simp [pow3]

theorem pow1_singleton (x : ℚ) : pow1 [x] = x := by simp [pow1]

theorem pow2_singleton (x : ℚ) : pow2 [x] = x ^ 2 := by simp [pow2]

theorem pow3_singleton (x : ℚ) : pow3 [x] = x ^ 3 := by simp [pow3]

/-- One `add` step moves the closed-form state of `xs` to that of
`xs ++ [x]`: Terriberry's running update is exact in exact arithmetic. -/
theorem specA_add (xs : List ℚ) (x : ℚ) :
    (specA xs).add x = specA (xs ++ [x]) := by
  rcases eq_or_ne xs [] with h | h
  · subst h
    ext <;>
      simp [specA, Skewness.add, Skewness.increment, Skewness.add_inner,
        Skewness.mean, Skewness.len, MeanWithError.increment,
        MeanWithError.add_inner, MeanWithError.mean, MeanWithError.len,
        pow1, pow2, pow3] <;> ring
  · have hn : (0 : ℚ) < (xs.length : ℚ) := by
      have : 0 < xs.length := List.length_pos.mpr h
      exact_mod_cast this
    have hn0 : ((xs.length : ℚ)) ≠ 0 := ne_of_gt hn
    have hn1 : ((xs.length : ℚ) + 1) ≠ 0 := by positivity
    ext
    · simp [specA, Skewness.add, Skewness.increment, Skewness.add_inner,
        Skewness.len, MeanWithError.increment, MeanWithError.add_inner,
        MeanWithError.len]
    · simp only [specA, Skewness.add, Skewness.increment, Skewness.add_inner,
        Skewness.mean, Skewness.len, MeanWithError.increment,
        MeanWithError.add_inner, MeanWithError.mean, MeanWithError.len,
        pow1_append, pow2_append, pow3_append, pow1_singleton,
        pow2_singleton, pow3_singleton, List.length_append,
        List.length_singleton]
      push_cast
      field_simp
      ring
    · simp only [specA, Skewness.add, Skewness.increment, Skewness.add_inner,
        Skewness.mean, Skewness.len, MeanWithError.increment,
        MeanWithError.add_inner, MeanWithError.mean, MeanWithError.len,
        pow1_append, pow2_append, pow3_append, pow1_singleton,
        pow2_singleton, pow3_singleton, List.length_append,
        List.length_singleton]
      push_cast
      field_simp
      ring
    · simp only [specA, Skewness.add, Skewness.increment, Skewness.add_inner,
        Skewness.mean, Skewness.len, MeanWithError.increment,
        MeanWithError.add_inner, MeanWithError.mean, MeanWithError.len,
        pow1_append, pow2_append, pow3_append, pow1_singleton,
        pow2_singleton, pow3_singleton, List.length_append,
        List.length_singleton]
      push_cast
      field_simp
      ring

/-- `merge` combines the closed-form states of two partitions into the
closed-form state of their concatenation: Chan's combination rule (and the
Pébay-style third-moment rule) is exact in exact arithmetic, including
when either partition is empty. -/
theorem specA_merge (xs ys : List ℚ) :
    (specA xs).merge (specA ys) = specA (xs ++ ys) := by
  rcases eq_or_ne xs [] with hx | hx
  · subst hx
    rcases eq_or_ne ys [] with hy | hy
    · subst hy
      ext <;>
        simp [specA, Skewness.merge, Skewness.mean, Skewness.len,
          MeanWithError.merge, MeanWithError.mean, MeanWithError.len,
          pow1, pow2, pow3]
    · have hn : (0 : ℚ) < (ys.length : ℚ) := by
        have : 0 < ys.length := List.length_pos.mpr hy
        exact_mod_cast this
      have hn0 : ((ys.length : ℚ)) ≠ 0 := ne_of_gt hn
      ext <;>
        (simp only [specA, Skewness.merge, Skewness.mean, Skewness.len,
          MeanWithError.merge, MeanWithError.mean, MeanWithError.len,
          List.nil_append, List.length_nil, pow1, pow2, pow3, List.map_nil,
          List.sum_nil, Nat.cast_zero]
         push_cast
         field_simp)
  · rcases eq_or_ne ys [] with hy | hy
    · subst hy
      have hn : (0 : ℚ) < (xs.length : ℚ) := by
        have : 0 < xs.length := List.length_pos.mpr hx
        exact_mod_cast this
      have hn0 : ((xs.length : ℚ)) ≠ 0 := ne_of_gt hn
      ext <;>
        (simp only [specA, Skewness.merge, Skewness.mean, Skewness.len,
          MeanWithError.merge, MeanWithError.mean, MeanWithError.len,
          List.append_nil, List.length_nil, pow1, pow2, pow3, List.map_nil,
          List.sum_nil, Nat.cast_zero]
         push_cast
         field_simp)
    · have hnx : (0 : ℚ) < (xs.length : ℚ) := by
        have : 0 < xs.length := List.length_pos.mpr hx
        exact_mod_cast this
      have hny : (0 : ℚ) < (ys.length : ℚ) := by
        have : 0 < ys.length := List.length_pos.mpr hy
        exact_mod_cast this
      have hx0 : ((xs.length : ℚ)) ≠ 0 := ne_of_gt hnx
      have hy0 : ((ys.length : ℚ)) ≠ 0 := ne_of_gt hny
      have hxy0 : ((xs.length : ℚ) + (ys.length : ℚ)) ≠ 0 := by positivity
      ext
      · simp [specA, Skewness.merge, Skewness.len, MeanWithError.merge,
          MeanWithError.len]
      · simp only [specA, Skewness.merge, Skewness.mean, Skewness.len,
          MeanWithError.merge, MeanWithError.mean, MeanWithError.len,
          pow1_append, pow2_append, pow3_append, List.length_append]
        push_cast
        field_simp
        ring
      · simp only [specA, Skewness.merge, Skewness.mean, Skewness.len,
          MeanWithError.merge, MeanWithError.mean, MeanWithError.len,
          pow1_append, pow2_append, pow3_append, List.length_append]
        push_cast
        field_simp
        ring
      · simp only [specA, Skewness.merge, Skewness.mean, Skewness.len,
          MeanWithError.merge, MeanWithError.mean, MeanWithError.len,
          pow1_append, pow2_append, pow3_append, List.length_append]
        push_cast
        field_simp
        ring

/-- The empty closed-form state is the fresh accumulator. -/
theorem specA_nil : specA [] = Skewness.new := by
  ext <;> simp [specA, Skewness.new, MeanWithError.new, pow1, pow2, pow3]

/-- Folding `add` over a list from the empty accumulator lands exactly on
the closed-form state. -/
theorem of_list_eq_specA (xs : List ℚ) : Skewness.of_list xs = specA xs := by
  induction xs using List.reverseRecOn with
  | nil => simp [Skewness.of_list, specA_nil]
  | append_singleton xs x ih =>
      have : Skewness.of_list (xs ++ [x]) = (Skewness.of_list xs).add x := by
        simp [Skewness.of_list]
      rw [this, ih, specA_add]

theorem pow1_cons (a : ℚ) (l : List ℚ) : pow1 (a :: l) = a + pow1 l := by
  simp [pow1]

theorem pow2_cons (a : ℚ) (l : List ℚ) : pow2 (a :: l) = a ^ 2 + pow2 l := by
  simp [pow2]

theorem pow3_cons (a : ℚ) (l : List ℚ) : pow3 (a :: l) = a ^ 3 + pow3 l := by
  simp [pow3]

/-- Shift identity for the second central sum. -/
theorem shift_sq_sum (xs : List ℚ) (c : ℚ) :
    (xs.map (fun x => (x - c) ^ 2)).sum
      = pow2 xs - 2 * c * pow1 xs + (xs.length : ℚ) * c ^ 2 := by
  induction xs with
  | nil => simp [pow1, pow2]
  | cons a l ih =>
      simp only [List.map_cons, List.sum_cons, ih, pow1_cons, pow2_cons,
        List.length_cons]
      push_cast
      ring

/-- Shift identity for the third central sum. -/
theorem shift_cube_sum (xs : List ℚ) (c : ℚ) :
    (xs.map (fun x => (x - c) ^ 3)).sum
      = pow3 xs - 3 * c * pow2 xs + 3 * c ^ 2 * pow1 xs
        - (xs.length : ℚ) * c ^ 3 := by
  induction xs with
  | nil => simp [pow1, pow2, pow3]
  | cons a l ih =>
      simp only [List.map_cons, List.sum_cons, ih, pow1_cons, pow2_cons,
        pow3_cons, List.length_cons]
      push_cast
      ring

/-- The closed-form `sum_2` is the sum of squared deviations from the
closed-form mean. -/
theorem specA_sum_2_central (xs : List ℚ) :
    (specA xs).avg.sum_2
      = (xs.map (fun x => (x - (specA xs).mean) ^ 2)).sum := by
  rcases eq_or_ne xs [] with h | h
  · subst h
    simp [specA, pow1, pow2]
  · have hn0 : ((xs.length : ℚ)) ≠ 0 := by
      have : 0 < xs.length := List.length_pos.mpr h
      exact_mod_cast this.ne'
    rw [shift_sq_sum]
    simp only [specA, Skewness.mean, MeanWithError.mean]
    field_simp
    ring

/-- The closed-form `sum_3` is the sum of cubed deviations from the
closed-form mean. -/
theorem specA_sum_3_central (xs : List ℚ) :
    (specA xs).sum_3
      = (xs.map (fun x => (x - (specA xs).mean) ^ 3)).sum := by
  rcases eq_or_ne xs [] with h | h
  · subst h
    simp [specA, pow1, pow2, pow3]
  · have hn0 : ((xs.length : ℚ)) ≠ 0 := by
      have : 0 < xs.length := List.length_pos.mpr h
      exact_mod_cast this.ne'
    rw [shift_cube_sum]
    simp only [specA, Skewness.mean, MeanWithError.mean]
    field_simp
    ring

/-- A zero sum of squared deviations forces every observation to equal the
center. -/
theorem sq_sum_zero_mem {c : ℚ} :
    ∀ xs : List ℚ, (xs.map (fun x => (x - c) ^ 2)).sum = 0 →
      ∀ x ∈ xs, x = c := by
  intro xs
  induction xs with
  | nil => simp
  | cons a l ih =>
      intro h x hx
      have hsum : (a - c) ^ 2 + (l.map (fun x => (x - c) ^ 2)).sum = 0 := by
        simpa using h
      have hl : 0 ≤ (l.map (fun x => (x - c) ^ 2)).sum := by
        apply List.sum_nonneg
        intro y hy
        obtain ⟨z, _, rfl⟩ := List.mem_map.mp hy
        exact sq_nonneg _
      have ha : 0 ≤ (a - c) ^ 2 := sq_nonneg _
      have hz := (add_eq_zero_iff_of_nonneg ha hl).mp hsum
      rcases List.mem_cons.mp hx with rfl | hx
      · have : x - c = 0 := by
          have := hz.1
          exact pow_eq_zero_iff (n := 2) (by norm_num) |>.mp this
        linarith
      · exact ih hz.2 x hx

/-- States reachable from `new()` by any finite sequence of `add` and
`merge` operations. -/
inductive Reach : Skewness → Prop
  | base : Reach Skewness.new
  | step_add : ∀ {s : Skewness} (x : ℚ), Reach s → Reach (s.add x)
  | step_merge : ∀ {s o : Skewness}, Reach s → Reach o → Reach (s.merge o)

/-- Every reachable state is the closed-form state of some observation
list. -/
theorem reach_specA {s : Skewness} (h : Reach s) : ∃ xs, s = specA xs := by
  induction h with
  | base => exact ⟨[], specA_nil.symm⟩
  | step_add x _ ih =>
      obtain ⟨xs, rfl⟩ := ih
      exact ⟨xs ++ [x], specA_add xs x⟩
  | step_merge _ _ ih1 ih2 =>
      obtain ⟨xs, rfl⟩ := ih1
      obtain ⟨ys, rfl⟩ := ih2
      exact ⟨xs ++ ys, specA_merge xs ys⟩

/-- Reachability through `add` and `merge` in which no merge combines two
empty accumulators.  On every such path the source divides only by
positive counts, so the exact model is faithful there (up to rounding);
the excluded path is settled in the float-faithful model. -/
inductive ReachNE : Skewness → Prop
  | base : ReachNE Skewness.new
  | step_add : ∀ {s : Skewness} (x : ℚ), ReachNE s → ReachNE (s.add x)
  | step_merge : ∀ {s o : Skewness}, ReachNE s → ReachNE o →
      1 ≤ s.len + o.len → ReachNE (s.merge o)

/-- Restricted reachability implies reachability. -/
theorem reachNE_reach {s : Skewness} (h : ReachNE s) : Reach s := by
  induction h with
  | base => exact Reach.base
  | step_add x _ ih => exact Reach.step_add x ih
  | step_merge _ _ _ ih1 ih2 => exact Reach.step_merge ih1 ih2

/-! ## Claims -/

/-- C1: `Skewness::merge` updates the third-moment term to
`sum_3₁ + sum_3₂ + delta*delta_n*delta_n*n₁*n₂*(n₁ - n₂)
 + 3*delta_n*(n₁*sum_2₂ - n₂*sum_2₁)` with `delta = mean₂ - mean₁` and
`delta_n = delta/(n₁+n₂)`, evaluated on both accumulators' pre-merge
`sum_2` values; the delegated mean/variance merge acts on the unchanged
input accumulators. -/
theorem merge_sum_3_formula (s o : Skewness) :
    (s.merge o).sum_3 =
      (let n1 : ℚ := s.len
       let n2 : ℚ := o.len
       let n := n1 + n2
       let delta := o.mean - s.mean
       let delta_n := delta / n
       s.sum_3 + o.sum_3
         + delta * delta_n * delta_n * n1 * n2 * (n1 - n2)
         + 3 * delta_n * (n1 * o.avg.sum_2 - n2 * s.avg.sum_2))
    ∧ (s.merge o).avg = s.avg.merge o.avg := by
  refine ⟨?_, rfl⟩
  simp only [Skewness.merge]
  ring

/-- C2: `Skewness::add` follows the order-sensitive protocol:
`delta = x - mean_before`, the count is incremented, and with
`n` the incremented count and `delta_n = delta/n`, `sum_3` gains
`term * delta_n * (n - 2) - 3 * delta_n * sum_2_before` with
`term = delta * delta_n * (n - 1)` and `sum_2_before` the owned
accumulator's pre-update `sum_2`; only then are the owned mean and
`sum_2` updated via `add_inner` with the same `delta_n`. -/
theorem add_protocol (s : Skewness) (x : ℚ) :
    s.add x =
      (let delta := x - s.mean
       let n : ℚ := (s.len : ℚ) + 1
       let delta_n := delta / n
       let term := delta * delta_n * (n - 1)
       { avg := (s.avg.increment).add_inner delta_n
         sum_3 := s.sum_3
           + (term * delta_n * (n - 2) - 3 * delta_n * s.avg.sum_2) }) := by
  ext
  · rfl
  · simp only [Skewness.add, Skewness.increment, Skewness.add_inner,
      Skewness.mean, Skewness.len, MeanWithError.increment,
      MeanWithError.add_inner, MeanWithError.mean, MeanWithError.len]
    push_cast
    ring
  · simp only [Skewness.add, Skewness.increment, Skewness.add_inner,
      Skewness.mean, Skewness.len, MeanWithError.increment,
      MeanWithError.add_inner, MeanWithError.mean, MeanWithError.len]
    push_cast
    ring
  · simp only [Skewness.add, Skewness.increment, Skewness.add_inner,
      Skewness.mean, Skewness.len, MeanWithError.increment,
      MeanWithError.add_inner, MeanWithError.mean, MeanWithError.len]
    push_cast
    ring

/-- C3: `skewness()` returns 0 when `sum_3` is exactly 0 (without forming
the ratio), and otherwise returns `sqrt(count) * sum_3 / sum_2^1.5`. -/
theorem skewness_formula (s : Skewness) (h2 : 0 ≤ s.avg.sum_2) :
    (s.sum_3 = 0 → s.skewness = 0) ∧
    (s.sum_3 ≠ 0 →
      s.skewness =
        Real.sqrt (s.len : ℝ) * (s.sum_3 : ℝ)
          / ((s.avg.sum_2 : ℝ) ^ (1.5 : ℝ))) := by
  constructor
  · intro h
    simp [Skewness.skewness, h]
  · intro h
    have h2r : (0 : ℝ) ≤ (s.avg.sum_2 : ℝ) := by exact_mod_cast h2
    have hpow : ((s.avg.sum_2 : ℝ)) ^ (1.5 : ℝ)
        = Real.sqrt ((s.avg.sum_2 : ℝ) * (s.avg.sum_2 : ℝ) * (s.avg.sum_2 : ℝ)) := by
      have h3 : (s.avg.sum_2 : ℝ) * (s.avg.sum_2 : ℝ) * (s.avg.sum_2 : ℝ)
          = (s.avg.sum_2 : ℝ) ^ (3 : ℕ) := by ring
      rw [h3, Real.sqrt_eq_rpow, ← Real.rpow_natCast ((s.avg.sum_2 : ℝ)) 3,
        ← Real.rpow_mul h2r]
      norm_num
    rw [Skewness.skewness, if_neg h, hpow]

/-- C3 witness. -/
theorem skewness_formula_witness :
    (0 : ℚ) ≤ (Skewness.mk (MeanWithError.mk 3 0 2) 5).avg.sum_2 ∧
    (((Skewness.mk (MeanWithError.mk 3 0 2) 5).sum_3 = 0 →
        (Skewness.mk (MeanWithError.mk 3 0 2) 5).skewness = 0) ∧
      ((Skewness.mk (MeanWithError.mk 3 0 2) 5).sum_3 ≠ 0 →
        (Skewness.mk (MeanWithError.mk 3 0 2) 5).skewness =
          Real.sqrt ((Skewness.mk (MeanWithError.mk 3 0 2) 5).len : ℝ)
            * ((Skewness.mk (MeanWithError.mk 3 0 2) 5).sum_3 : ℝ)
            / (((Skewness.mk (MeanWithError.mk 3 0 2) 5).avg.sum_2 : ℝ)
                ^ (1.5 : ℝ)))) :=
  ⟨by norm_num, skewness_formula (Skewness.mk (MeanWithError.mk 3 0 2) 5) (by norm_num)⟩

/-- C4: building one accumulator per non-empty half and merging yields the
same mean, sample variance, population variance and skewness as a single
sequential pass over the whole sequence (exactly, in the exact-arithmetic
model, hence within any tolerance). -/
theorem split_merge_eq_single (xs ys : List ℚ) (hx : xs ≠ []) (hy : ys ≠ []) :
    ((Skewness.of_list xs).merge (Skewness.of_list ys)).mean
        = (Skewness.of_list (xs ++ ys)).mean ∧
    ((Skewness.of_list xs).merge (Skewness.of_list ys)).sample_variance
        = (Skewness.of_list (xs ++ ys)).sample_variance ∧
    ((Skewness.of_list xs).merge (Skewness.of_list ys)).population_variance
        = (Skewness.of_list (xs ++ ys)).population_variance ∧
    ((Skewness.of_list xs).merge (Skewness.of_list ys)).skewness
        = (Skewness.of_list (xs ++ ys)).skewness := by
  have h : (Skewness.of_list xs).merge (Skewness.of_list ys)
      = Skewness.of_list (xs ++ ys) := by
    rw [of_list_eq_specA, of_list_eq_specA, of_list_eq_specA, specA_merge]
  rw [h]
  exact ⟨rfl, rfl, rfl, rfl⟩

/-- C4 witness. -/
theorem split_merge_eq_single_witness :
    ([1, 2] : List ℚ) ≠ [] ∧ ([3] : List ℚ) ≠ [] ∧
    (((Skewness.of_list [1, 2]).merge (Skewness.of_list [3])).mean
        = (Skewness.of_list ([1, 2] ++ [3])).mean ∧
    ((Skewness.of_list [1, 2]).merge (Skewness.of_list [3])).sample_variance
        = (Skewness.of_list ([1, 2] ++ [3])).sample_variance ∧
    ((Skewness.of_list [1, 2]).merge (Skewness.of_list [3])).population_variance
        = (Skewness.of_list ([1, 2] ++ [3])).population_variance ∧
    ((Skewness.of_list [1, 2]).merge (Skewness.of_list [3])).skewness
        = (Skewness.of_list ([1, 2] ++ [3])).skewness) :=
  ⟨by decide, by decide,
    split_merge_eq_single [1, 2] [3] (by decide) (by decide)⟩

/-- C5 counterexample: the state reached by merging two fresh
accumulators — reachable exactly as the claim quantifies — has count 0
but non-finite (hence nonzero) moment fields: at `skewness.rs:118` the
source computes `delta_n = 0.0/0.0 = NaN`, which poisons `sum_3`, so in
the float-faithful model the state lies in neither of the claim's two
classes. -/
theorem state_machine_counterexample :
    FReach (FSkewness.new.merge FSkewness.new) ∧
    ¬ ((((FSkewness.new.merge FSkewness.new).len = 0 ∧
          (FSkewness.new.merge FSkewness.new).mean = some 0 ∧
          (FSkewness.new.merge FSkewness.new).avg.sum_2 = some 0 ∧
          (FSkewness.new.merge FSkewness.new).sum_3 = some 0) ∨
        1 ≤ (FSkewness.new.merge FSkewness.new).len)) := by
  refine ⟨FReach.step_merge FReach.base FReach.base, ?_⟩
  simp [FSkewness.merge, FSkewness.new, FSkewness.mean, FSkewness.len,
    FMeanWithError.merge, FMeanWithError.new, FMeanWithError.mean,
    FMeanWithError.len, fadd, fsub, fmul, fdiv]

/-- C5 (amended): every accumulator reachable from `new()` by a sequence
of `add` and `merge` operations in which no merge combines two empty
accumulators is either empty with all moment fields 0 or has count at
least 1; and neither `add` nor `merge` takes a non-empty accumulator back
to empty.  (Merging two empty accumulators instead yields a count-0 state
with non-finite moment fields — the counterexample above.) -/
theorem state_machine_no_empty_merge (s : Skewness) (h : ReachNE s) :
    ((s.len = 0 ∧ s.mean = 0 ∧ s.avg.sum_2 = 0 ∧ s.sum_3 = 0) ∨ 1 ≤ s.len) ∧
    (∀ x : ℚ, 1 ≤ s.len → 1 ≤ (s.add x).len) ∧
    (∀ o : Skewness, 1 ≤ s.len → 1 ≤ (s.merge o).len) := by
  refine ⟨?_, ?_, ?_⟩
  · obtain ⟨xs, rfl⟩ := reach_specA (reachNE_reach h)
    rcases eq_or_ne xs [] with hx | hx
    · subst hx
      left
      rw [specA_nil]
      exact ⟨rfl, rfl, rfl, rfl⟩
    · right
      have : 0 < xs.length := List.length_pos.mpr hx
      simpa [specA, Skewness.len, MeanWithError.len] using this
  · intro x hs
    have : (s.add x).len = s.len + 1 := rfl
    omega
  · intro o hs
    have : (s.merge o).len = s.len + o.len := rfl
    omega

/-- C5 witness. -/
theorem state_machine_no_empty_merge_witness :
    ((Skewness.new.len = 0 ∧ Skewness.new.mean = 0 ∧
        Skewness.new.avg.sum_2 = 0 ∧ Skewness.new.sum_3 = 0) ∨
      1 ≤ Skewness.new.len) ∧
    (∀ x : ℚ, 1 ≤ Skewness.new.len → 1 ≤ (Skewness.new.add x).len) ∧
    (∀ o : Skewness, 1 ≤ Skewness.new.len → 1 ≤ (Skewness.new.merge o).len) :=
  state_machine_no_empty_merge Skewness.new ReachNE.base

/-- C6: `merge` as a transformer of the (`&mut self`, `&other`) pair
mutates only the first component; `other` comes back unmodified in count,
mean, `sum_2` and `sum_3`. -/
theorem merge_frame (s o : Skewness) :
    (Skewness.merge_pair s o).1 = s.merge o ∧
    (Skewness.merge_pair s o).2 = o :=
  ⟨rfl, rfl⟩

/-- C7: each query of `Skewness` — mean, len, is_empty, sample variance,
population variance and the standard-error query — returns exactly the
owned `MeanWithError`'s answer, unmodified. -/
theorem query_delegation (s : Skewness) :
    s.mean = s.avg.mean ∧ s.len = s.avg.len ∧
    s.is_empty = s.avg.is_empty ∧
    s.sample_variance = s.avg.sample_variance ∧
    s.population_variance = s.avg.population_variance ∧
    s.error_mean = s.avg.error :=
  ⟨rfl, rfl, rfl, rfl, rfl, rfl⟩

/-- C8: in every reachable state a nonzero `sum_3` forces a nonzero
`sum_2`, so the division in `skewness()` never divides by zero and the
guarding assertion never fires. -/
theorem sum_2_ne_zero_of_sum_3_ne_zero (s : Skewness) (h : Reach s)
    (h3 : s.sum_3 ≠ 0) : s.avg.sum_2 ≠ 0 := by
  obtain ⟨xs, rfl⟩ := reach_specA h
  intro h2
  apply h3
  rw [specA_sum_3_central]
  apply List.sum_eq_zero
  intro y hy
  obtain ⟨x, hx, rfl⟩ := List.mem_map.mp hy
  have hx0 : x = (specA xs).mean := by
    apply sq_sum_zero_mem xs _ x hx
    rw [← specA_sum_2_central]
    exact h2
  rw [hx0]
  ring

/-- C8 witness: the state after adding 1, 1, 2 is reachable and has a
nonzero `sum_3`. -/
theorem sum_2_ne_zero_of_sum_3_ne_zero_witness :
    Reach (((Skewness.new.add 1).add 1).add 2) ∧
    (((Skewness.new.add 1).add 1).add 2).sum_3 ≠ 0 ∧
    (((Skewness.new.add 1).add 1).add 2).avg.sum_2 ≠ 0 :=
  ⟨Reach.step_add 2 (Reach.step_add 1 (Reach.step_add 1 Reach.base)),
    by norm_num [Skewness.add, Skewness.increment, Skewness.add_inner,
      Skewness.mean, Skewness.len, Skewness.new, MeanWithError.increment,
      MeanWithError.add_inner, MeanWithError.mean, MeanWithError.len,
      MeanWithError.new],
    sum_2_ne_zero_of_sum_3_ne_zero (((Skewness.new.add 1).add 1).add 2)
      (Reach.step_add 2 (Reach.step_add 1 (Reach.step_add 1 Reach.base)))
      (by norm_num [Skewness.add, Skewness.increment, Skewness.add_inner,
        Skewness.mean, Skewness.len, Skewness.new, MeanWithError.increment,
        MeanWithError.add_inner, MeanWithError.mean, MeanWithError.len,
        MeanWithError.new])⟩

/-- C9: after at most two `add` calls from the empty accumulator, `sum_3`
is exactly 0, so `skewness()` returns exactly 0. -/
theorem few_adds_skewness_zero (xs : List ℚ) (h : xs.length ≤ 2) :
    (Skewness.of_list xs).sum_3 = 0 ∧ (Skewness.of_list xs).skewness = 0 := by
  have h3 : (Skewness.of_list xs).sum_3 = 0 := by
    rw [of_list_eq_specA]
    match xs, h with
    | [], _ => simp [specA, pow1, pow2, pow3]
    | [a], _ =>
        simp [specA, pow1, pow2, pow3]
        ring
    | [a, b], _ =>
        simp only [specA, pow1, pow2, pow3, List.map_cons, List.map_nil,
          List.sum_cons, List.sum_nil, List.length_cons, List.length_nil]
        push_cast
        ring
  exact ⟨h3, by simp [Skewness.skewness, h3]⟩

/-- C9 witness. -/
theorem few_adds_skewness_zero_witness :
    ([3, 5] : List ℚ).length ≤ 2 ∧
    ((Skewness.of_list [3, 5]).sum_3 = 0 ∧
      (Skewness.of_list [3, 5]).skewness = 0) :=
  ⟨by decide, few_adds_skewness_zero [3, 5] (by decide)⟩

/-- C10: merging an empty accumulator (count 0 and all moment fields 0)
into a non-empty accumulator leaves the latter's count and `sum_3`
unchanged. -/
theorem merge_empty_right_id (s o : Skewness) (hs : 1 ≤ s.len)
    (ho : o.len = 0) (hom : o.mean = 0) (ho2 : o.avg.sum_2 = 0)
    (ho3 : o.sum_3 = 0) :
    (s.merge o).len = s.len ∧ (s.merge o).sum_3 = s.sum_3 := by
  constructor
  · have hn : o.avg.n = 0 := ho
    simp [Skewness.merge, Skewness.len, MeanWithError.merge,
      MeanWithError.len, hn]
  · have hn : o.avg.n = 0 := ho
    simp only [Skewness.merge, Skewness.len, Skewness.mean,
      MeanWithError.len, MeanWithError.mean, hn, ho3, ho2, Nat.cast_zero]
    ring

/-- C10 witness. -/
theorem merge_empty_right_id_witness :
    1 ≤ (Skewness.new.add 5).len ∧ Skewness.new.len = 0 ∧
    Skewness.new.mean = 0 ∧ Skewness.new.avg.sum_2 = 0 ∧
    Skewness.new.sum_3 = 0 ∧
    (((Skewness.new.add 5).merge Skewness.new).len = (Skewness.new.add 5).len ∧
      ((Skewness.new.add 5).merge Skewness.new).sum_3 = (Skewness.new.add 5).sum_3) :=
  ⟨by decide, rfl, rfl, rfl, rfl,
    merge_empty_right_id (Skewness.new.add 5) Skewness.new
      (by decide) rfl rfl rfl rfl⟩
